import Mathlib

/-!
Verification of the MDACE-data core: the span/annotation data model, the
cleanup engine (`mdace/cleanup.py`), the tokenizer (`mdace/text.py`) and the
error-rate engine (`mdace/metrics.py`), shallowly embedded in Lean.

Note texts are modelled as `List Char` (Python strings index by code point;
`text[i:j]` becomes `pyslice`).  Python code that raises an exception is
modelled as an `Option`-valued function returning `none`.  The dataclasses of
`mdace/data.py` are not under `src/`; their fields are modelled from the spec
(section 3, DATA MODEL) exactly as the code in `src/` consumes them.
-/

namespace MDACE

/-- Modelled from the spec: `mdace/data.py` is not under `src/`.  A `Span` is a
pair of character offsets `begin`/`end` plus an optional covered text (the
substring of the owning note's text).  The Python field `end` is written
`«end»`. -/
structure Span where
  begin : Nat
  «end» : Nat
  covered_text : Option (List Char)
deriving DecidableEq

/-- Modelled from the spec: an `Annotation` is a `Span` plus a billing code
(the comparable identifier used for merge grouping and matching). -/
structure Annotation where
  span : Span
  billing_code : String
deriving DecidableEq

/-- Modelled from the spec: a `Note` has an id, a category, its full text and
an ordered sequence of annotations.  The cleanup and metrics code of `src/`
only ever reads the text of notes whose text is present, so the text is
modelled as a plain `List Char`. -/
structure Note where
  note_id : Nat
  category : String
  text : List Char
  annotations : List Annotation
deriving DecidableEq

/-- Modelled from the spec: an `Admission` is an id plus its notes. -/
structure Admission where
  hadm_id : Nat
  notes : List Note
deriving DecidableEq

/-- Python slice `text[i:j]` for non-negative `i`, `j` (out-of-range indices
clamp, `i ≥ j` gives the empty string). -/
def pyslice (text : List Char) (i j : Nat) : List Char :=
  (text.take j).drop i

/-- Python indexing `text[i]`.  The cleanup code only indexes inside the note
text (annotation spans lie within `[0, len(text)]` by the data-model
invariant), so the out-of-range default is irrelevant; `'A'` belongs to no
trim set and is a word character. -/
def charAt (text : List Char) (i : Nat) : Char :=
  text.getD i 'A'

/-- Python truthiness of an optional string: `None` and `""` are falsy. -/
def truthy : Option (List Char) → Bool
  | some (_ :: _) => true
  | _ => false

/-! ### Cleanup engine (`mdace/cleanup.py`) -/

/-- `_NON_BREAKING_CHARS = set(string.punctuation) | set(string.whitespace)`:
`string.punctuation` is exactly ASCII 33–47, 58–64, 91–96 and 123–126, and
`string.whitespace` is `" \t\n\r\v\f"`, i.e. ASCII 9–13 and 32. -/
def isNonBreakingChar (c : Char) : Bool :=
  (33 ≤ c.toNat && c.toNat ≤ 47) || (58 ≤ c.toNat && c.toNat ≤ 64) ||
  (91 ≤ c.toNat && c.toNat ≤ 96) || (123 ≤ c.toNat && c.toNat ≤ 126) ||
  (9 ≤ c.toNat && c.toNat ≤ 13) || c.toNat == 32

/-- `_is_non_breaking`: all characters of the connecting text are
non-breaking (vacuously true for the empty string, as Python's `all`). -/
def isNonBreaking (connecting : List Char) : Bool :=
  connecting.all isNonBreakingChar

/-- `_merge(left, right, note_text)`: the merged annotation spans from
`left`'s begin to `right`'s end; its covered text is recomputed from the note
text when `left.span.covered_text` is truthy, else absent; all other fields
are `left`'s (`dataclasses.replace(left, span=new_span)`). -/
def mergeAnn (left right : Annotation) (note_text : List Char) : Annotation :=
  let new_begin := left.span.begin
  let new_end := right.span.«end»
  let covered_text : Option (List Char) :=
    if truthy left.span.covered_text then some (pyslice note_text new_begin new_end)
    else none
  { left with span := ⟨new_begin, new_end, covered_text⟩ }

/-- The merge test of `_merge_adjacent`: equal billing codes and only
non-breaking characters strictly between the previous end and the current
begin. -/
def mergeable (note_text : List Char) (prev cur : Annotation) : Bool :=
  prev.billing_code == cur.billing_code &&
    isNonBreaking (pyslice note_text prev.span.«end» cur.span.begin)

/-- Stable insertion by `span.begin` (an element is placed before the first
element with a key not smaller than its own, so elements with equal keys keep
their original relative order — Python's `sorted` is stable). -/
def insertAnn (a : Annotation) : List Annotation → List Annotation
  | [] => [a]
  | b :: rest =>
    if a.span.begin ≤ b.span.begin then a :: b :: rest else b :: insertAnn a rest

/-- `sorted(annotations, key=lambda a: a.span.begin)`: stable sort by span
begin, modelled as stable insertion sort (extensionally equal to any stable
sort by this key). -/
def sortByBegin : List Annotation → List Annotation
  | [] => []
  | a :: rest => insertAnn a (sortByBegin rest)

/-- The accumulation loop of `_merge_adjacent`: `last` is the last
accumulated annotation (`merged[-1]`); a mergeable current annotation is
merged into it, otherwise `last` is finalised and the current annotation
starts a new accumulation entry. -/
def goMerge (note_text : List Char) : Annotation → List Annotation → List Annotation
  | last, [] => [last]
  | last, cur :: rest =>
    if mergeable note_text last cur then goMerge note_text (mergeAnn last cur note_text) rest
    else last :: goMerge note_text cur rest

/-- `_merge_adjacent(annotations, note_text)`: lists with fewer than two
annotations are returned unchanged; otherwise sort by begin and run the
accumulation loop seeded with the first element. -/
def mergeAdjacent (annotations : List Annotation) (note_text : List Char) : List Annotation :=
  if annotations.length < 2 then annotations
  else
    match sortByBegin annotations with
    | [] => []
    | first :: rest => goMerge note_text first rest

/-- `merge_adjacent_in_note(note)`: notes with fewer than two annotations are
returned unchanged; the merged list replaces the note's annotations only when
it is strictly shorter. -/
def mergeAdjacentInNote (note : Note) : Note :=
  if note.annotations.length < 2 then note
  else
    let new_annos := mergeAdjacent note.annotations note.text
    if new_annos.length < note.annotations.length then { note with annotations := new_annos }
    else note

/-- `TRIM_L_CHARS = set(")") | set("-.,/ \n\t")`. -/
def isTrimL (c : Char) : Bool :=
  c == ')' || c == '-' || c == '.' || c == ',' || c == '/' || c == ' ' || c == '\n' || c == '\t'

/-- `TRIM_R_CHARS = set("(") | set("-.,/ \n\t")`. -/
def isTrimR (c : Char) : Bool :=
  c == '(' || c == '-' || c == '.' || c == ',' || c == '/' || c == ' ' || c == '\n' || c == '\t'

/-- The left while-loop of `_do_trim`: advance `b` while `b < e` and the
character at `b` is in the left trim set.  `fuel` is the loop bound; with
`fuel = e - b` it never runs out before the loop's own guard stops it. -/
def trimLeftGo (text : List Char) (e : Nat) : Nat → Nat → Nat
  | b, 0 => b
  | b, fuel + 1 =>
    if b < e then
      if isTrimL (charAt text b) then trimLeftGo text e (b + 1) fuel else b
    else b

/-- The left boundary computed by `_do_trim`. -/
def pyTrimLeft (text : List Char) (b e : Nat) : Nat :=
  trimLeftGo text e b (e - b)

/-- The right while-loop of `_do_trim`: retract `e` while `e > b` and the
character at `e - 1` is in the right trim set. -/
def trimRightGo (text : List Char) (b : Nat) : Nat → Nat → Nat
  | e, 0 => e
  | e, fuel + 1 =>
    if b < e then
      if isTrimR (charAt text (e - 1)) then trimRightGo text b (e - 1) fuel else e
    else e

/-- The right boundary computed by `_do_trim` (the loop guard is
`new_end > new_begin`, with `new_begin` the already-trimmed left edge). -/
def pyTrimRight (text : List Char) (b e : Nat) : Nat :=
  trimRightGo text b e (e - b)

/-- `_do_trim(text, span)`: trim both edges, then recompute the covered text
from the new bounds when the original covered text is truthy, else absent. -/
def doTrim (text : List Char) (span : Span) : Span :=
  let new_begin := pyTrimLeft text span.begin span.«end»
  let new_end := pyTrimRight text new_begin span.«end»
  let new_covered_text : Option (List Char) :=
    if truthy span.covered_text then some (pyslice text new_begin new_end) else none
  ⟨new_begin, new_end, new_covered_text⟩

/-- `trim_annotations_in_note(note)`: each annotation's span is trimmed
independently; an annotation is replaced exactly when its span changed
(structural equality), which yields the same note value as always replacing.
The zero-length-span branch only logs. -/
def trimAnnotationsInNote (note : Note) : Note :=
  { note with
    annotations := note.annotations.map (fun cur =>
      let new_span := doTrim note.text cur.span
      if new_span = cur.span then cur else { cur with span := new_span }) }

/-! ### Tokenizer (`mdace/text.py`) -/

/-- A `\w` word character for the texts in scope: ASCII alphanumerics and the
underscore.  (The source pattern is Unicode-aware; the equivalence classes
coincide on ASCII text, which is all the claims exercise.) -/
def isWordChar (c : Char) : Bool :=
  c.isAlphanum || c == '_'

/-- The maximal word-character runs of a text, as `(offset, run)` pairs — the
non-overlapping left-to-right matches of `\w+` (`TOKEN_PATTERN.finditer`).
`fuel` bounds the recursion; with `fuel = text.length` it never runs out. -/
def wordRunsGo : Nat → List Char → Nat → List (Nat × List Char)
  | 0, _, _ => []
  | _ + 1, [], _ => []
  | fuel + 1, c :: cs, i =>
    if isWordChar c then
      (i, c :: cs.takeWhile isWordChar) ::
        wordRunsGo fuel (cs.dropWhile isWordChar) (i + 1 + (cs.takeWhile isWordChar).length)
    else wordRunsGo fuel cs (i + 1)

/-- All maximal word-character runs of a text, with their offsets. -/
def wordRuns (text : List Char) : List (Nat × List Char) :=
  wordRunsGo text.length text 0

/-- The spans built from the matches over the lower-cased text: each match
becomes a span with its covered text set to the matched (lower-cased)
substring. -/
def rawTokenSpans (text : List Char) : List Span :=
  (wordRuns (text.map Char.toLower)).map (fun p => ⟨p.1, p.1 + p.2.length, some p.2⟩)

/-- Python `str.isdigit()` for the texts in scope: non-empty and all ASCII
digits. -/
def pyIsDigit (l : List Char) : Bool :=
  !l.isEmpty && l.all Char.isDigit

/-- `int(s)` for a string of ASCII digits. -/
def digitsVal (l : List Char) : Nat :=
  l.foldl (fun n c => 10 * n + (c.toNat - 48)) 0

/-- The numeric post-filter predicate of `tokenize`:
`not span.covered_text.isdigit() or int(span.covered_text) <= 10`.
(The spans reaching the filter always carry a covered text; the `getD []`
default is never hit.) -/
def keepToken (s : Span) : Bool :=
  !pyIsDigit (s.covered_text.getD []) || digitsVal (s.covered_text.getD []) ≤ 10

/-- `tokenize(text)`: word-token spans over the lower-cased text, with purely
numeric tokens of value greater than 10 discarded. -/
def tokenize (text : List Char) : List Span :=
  (rawTokenSpans text).filter keepToken

/-! ### Error-rate engine (`mdace/metrics.py`) -/

/-- `ErrorRate`: non-negative integer counts of true positives, false
positives and false negatives. -/
structure ErrorRate where
  true_positives : Nat := 0
  false_positives : Nat := 0
  false_negatives : Nat := 0
deriving DecidableEq

/-- `ErrorRate.__add__` on two `ErrorRate`s: componentwise addition.  (The
Python method raises `ValueError` on a non-`ErrorRate` argument; the typed
embedding has no such case.) -/
def addER (x y : ErrorRate) : ErrorRate :=
  ⟨x.true_positives + y.true_positives, x.false_positives + y.false_positives,
    x.false_negatives + y.false_negatives⟩

/-- The smoothing constant `1e-6`.  Floating-point arithmetic is modelled by
exact rationals. -/
def eps : ℚ := 1 / 1000000

/-- `ErrorRate.precision = TP / (TP + FP + 1e-6)`. -/
def precision (e : ErrorRate) : ℚ :=
  (e.true_positives : ℚ) / ((e.true_positives : ℚ) + (e.false_positives : ℚ) + eps)

/-- `ErrorRate.recall = TP / (TP + FN + 1e-6)`.  (`recall` is a reserved
Mathlib command name, hence the `ER` suffix.) -/
def recallER (e : ErrorRate) : ℚ :=
  (e.true_positives : ℚ) / ((e.true_positives : ℚ) + (e.false_negatives : ℚ) + eps)

/-- `ErrorRate.f1_score = 2·(precision·recall) / (precision + recall + 1e-6)`. -/
def f1_score (e : ErrorRate) : ℚ :=
  2 * (precision e * recallER e) / (precision e + recallER e + eps)

/-- Iterating an admission yields its `(note, annotation)` pairs, note by
note (modelled from the spec: the dataset flattens to note/annotation pairs
for the metrics' `for note, annotation in admission` loops). -/
def pairs (adm : Admission) : List (Note × Annotation) :=
  adm.notes.flatMap (fun note => note.annotations.map (fun a => (note, a)))

/-- `_count_unique_errors` on already-computed key lists: TP/FP/FN are the
sizes of the intersection and the two set differences of the key sets. -/
def countUniqueErrors {K : Type} [DecidableEq K] (actualKeys predictedKeys : List K) : ErrorRate :=
  let actual_set := actualKeys.toFinset
  let predicted_set := predictedKeys.toFinset
  ⟨(actual_set ∩ predicted_set).card, (predicted_set \ actual_set).card,
    (actual_set \ predicted_set).card⟩

/-- `exact_match_error`: key = `(note_id, annotation)` with full structural
annotation equality. -/
def exactMatchError (actual predicted : Admission) : ErrorRate :=
  countUniqueErrors ((pairs actual).map (fun pr => (pr.1.note_id, pr.2)))
    ((pairs predicted).map (fun pr => (pr.1.note_id, pr.2)))

/-- `normalize(text) = text.lower()`. -/
def normalize (text : List Char) : List Char :=
  text.map Char.toLower

/-- The key of `position_independent_error`:
`(normalize(anno.span.covered_text), anno.billing_code)`.  An absent covered
text makes `normalize` raise (`None.lower()`), modelled as `none`. -/
def pieKey (pr : Note × Annotation) : Option (List Char × String) :=
  pr.2.span.covered_text.map (fun t => (normalize t, pr.2.billing_code))

/-- Fail-fast `mapM` over `Option`: `none` as soon as `f` fails on an
element, as a Python generator consumed inside `set(...)` raises at the first
failing element. -/
def optionMapM {α β : Type} (f : α → Option β) : List α → Option (List β)
  | [] => some []
  | x :: xs => (f x).bind (fun y => (optionMapM f xs).map (fun ys => y :: ys))

/-- `position_independent_error`: builds the actual key set, then the
predicted key set, then counts; raises (returns `none`) when any covered text
is absent. -/
def positionIndependentError (actual predicted : Admission) : Option ErrorRate :=
  (optionMapM pieKey (pairs actual)).bind (fun actualKeys =>
    (optionMapM pieKey (pairs predicted)).map (fun predictedKeys =>
      countUniqueErrors actualKeys predictedKeys))

/-- `tokenize_annotation`: raises (returns `none`) when the covered text is
absent; otherwise one annotation per token span, rebased onto the original
span's begin (the token span's own covered text is kept). -/
def tokenizeAnn (tokenize_fn : List Char → List Span) (a : Annotation) :
    Option (List Annotation) :=
  match a.span.covered_text with
  | none => none
  | some t =>
      some ((tokenize_fn t).map (fun sp =>
        { a with span := { sp with begin := a.span.begin + sp.begin,
                                   «end» := a.span.begin + sp.«end» } }))

/-- `tokenize_annotations`: concatenation of the per-annotation token
annotations, failing on the first annotation without covered text. -/
def tokenizeAnns (tokenize_fn : List Char → List Span) (annotations : List Annotation) :
    Option (List Annotation) :=
  (optionMapM (tokenizeAnn tokenize_fn) annotations).map List.flatten

/-- `tokenize_admission`: every note's annotations replaced by their token
annotations. -/
def tokenizeAdm (tokenize_fn : List Char → List Span) (adm : Admission) : Option Admission :=
  (optionMapM (fun note =>
      (tokenizeAnns tokenize_fn note.annotations).map
        (fun l => { note with annotations := l })) adm.notes).map
    (fun ns => { adm with notes := ns })

/-- `token_exact_match_error`: tokenize both admissions, then exact match. -/
def tokenExactMatchError (actual predicted : Admission)
    (tokenize_fn : List Char → List Span) : Option ErrorRate :=
  (tokenizeAdm tokenize_fn actual).bind (fun a =>
    (tokenizeAdm tokenize_fn predicted).map (fun p => exactMatchError a p))

/-- `token_position_independent_error`: tokenize both admissions, then
position-independent match. -/
def tokenPositionIndependentError (actual predicted : Admission)
    (tokenize_fn : List Char → List Span) : Option ErrorRate :=
  (tokenizeAdm tokenize_fn actual).bind (fun a =>
    (tokenizeAdm tokenize_fn predicted).bind (fun p => positionIndependentError a p))

/-- `AllErrorRates.error_rates`: the four accumulators (a fixed record; the
source keys a dict by the four semantic names). -/
structure AllErrorRates where
  span_exact_match : ErrorRate
  span_position_independent : ErrorRate
  token_exact_match : ErrorRate
  token_position_independent : ErrorRate
deriving DecidableEq

/-- `AllErrorRates.observe(actual, predicted)`: add one admission pair's four
error rates to the accumulators.  A raised exception (absent covered text)
aborts the update, modelled as `none`. -/
def observe (tokenize_fn : List Char → List Span) (s : AllErrorRates)
    (actual predicted : Admission) : Option AllErrorRates :=
  (positionIndependentError actual predicted).bind (fun e2 =>
    (tokenExactMatchError actual predicted tokenize_fn).bind (fun e3 =>
      (tokenPositionIndependentError actual predicted tokenize_fn).map (fun e4 =>
        ⟨addER s.span_exact_match (exactMatchError actual predicted),
         addER s.span_position_independent e2,
         addER s.token_exact_match e3,
         addER s.token_position_independent e4⟩)))

/-- Observing a sequence of admission pairs, left to right. -/
def observeAll (tokenize_fn : List Char → List Span) (s : AllErrorRates) :
    List (Admission × Admission) → Option AllErrorRates
  | [] => some s
  | (a, p) :: rest =>
    (observe tokenize_fn s a p).bind (fun s' => observeAll tokenize_fn s' rest)

/-- Some annotation of the admission has no covered text. -/
def hasMissingCovered (adm : Admission) : Prop :=
  ∃ pr ∈ pairs adm, pr.2.span.covered_text = none

instance (adm : Admission) : Decidable (hasMissingCovered adm) := by
  unfold hasMissingCovered; infer_instance

/-! ### Concrete values used by the example parts of the claims -/

/-- The merge example note: text `"foo, bar"`, two annotations `[0,3)` and
`[5,8)` with the same billing code. -/
def c1note : Note :=
  ⟨1, "Discharge summary", ("foo, bar".toList),
    [⟨⟨0, 3, some ("foo".toList)⟩, "A"⟩, ⟨⟨5, 8, some ("bar".toList)⟩, "A"⟩]⟩

/-- The expected merge result: a single annotation `[0,8)`. -/
def c1merged : Note :=
  ⟨1, "Discharge summary", ("foo, bar".toList),
    [⟨⟨0, 8, some ("foo, bar".toList)⟩, "A"⟩]⟩

/-- The same spans with different billing codes. -/
def c1noteDiff : Note :=
  ⟨1, "Discharge summary", ("foo, bar".toList),
    [⟨⟨0, 3, some ("foo".toList)⟩, "A"⟩, ⟨⟨5, 8, some ("bar".toList)⟩, "B"⟩]⟩

/-- Left annotation of the merge-characterization witness. -/
def c1wa : Annotation := ⟨⟨0, 3, some ("foo".toList)⟩, "A"⟩

/-- Right annotation of the merge-characterization witness. -/
def c1wb : Annotation := ⟨⟨5, 8, some ("bar".toList)⟩, "A"⟩

/-- The trim example: span `[0,5)` over text `"(abc)"`. -/
def c2span : Span := ⟨0, 5, some ("(abc)".toList)⟩

/-- The trim example note. -/
def c2note : Note := ⟨2, "Radiology", ("(abc)".toList), [⟨c2span, "X"⟩]⟩

/-- An annotation consisting solely of a whitespace character: trimming
strips it to the zero-length span `[1,1)` and recomputes its covered text as
the empty string, which a second pass turns into an absent covered text. -/
def c6note : Note := ⟨7, "Nursing", (" ".toList), [⟨⟨0, 1, some (" ".toList)⟩, "X"⟩]⟩

/-- A note whose annotation does not trim to the empty string. -/
def c6wnote : Note := ⟨3, "Nursing", ("ab".toList), [⟨⟨0, 2, some ("ab".toList)⟩, "Y"⟩]⟩

/-- An admission pair element for the order-invariance witness. -/
def c7adm1 : Admission :=
  ⟨1, [⟨1, "Discharge summary", ("foo bar".toList), [⟨⟨0, 3, some ("foo".toList)⟩, "A"⟩]⟩]⟩

/-- A second admission for the order-invariance witness. -/
def c7adm2 : Admission :=
  ⟨2, [⟨2, "Discharge summary", ("baz".toList), [⟨⟨0, 3, some ("baz".toList)⟩, "B"⟩]⟩]⟩

/-- All-zero accumulators (the initial `AllErrorRates` state). -/
def c7init : AllErrorRates := ⟨⟨0, 0, 0⟩, ⟨0, 0, 0⟩, ⟨0, 0, 0⟩, ⟨0, 0, 0⟩⟩

/-- A left annotation whose covered text is present but empty (`""`), over a
zero-length span `[2,2)` — `text[2:2] = ""` satisfies the covered-text
invariant. -/
def c9left : Annotation := ⟨⟨2, 2, some []⟩, "X"⟩

/-- A right annotation `[3,5)` with the same billing code, one non-breaking
character (`" "`) after the left span. -/
def c9right : Annotation := ⟨⟨3, 5, some ("cd".toList)⟩, "X"⟩

/-- The note holding the empty-covered-text merge counterexample. -/
def c9note : Note := ⟨9, "Nursing", ("ab cdef".toList), [c9left, c9right]⟩

/-- A left annotation with a present, non-empty covered text. -/
def c9wleft : Annotation := ⟨⟨0, 2, some ("ab".toList)⟩, "X"⟩

/-- An admission with an annotation whose covered text is absent. -/
def c10miss : Admission :=
  ⟨11, [⟨1, "Discharge summary", ("foo bar".toList), [⟨⟨0, 3, none⟩, "A"⟩]⟩]⟩

/-- An admission whose annotations all carry covered text. -/
def c10ok : Admission :=
  ⟨10, [⟨1, "Discharge summary", ("foo bar".toList), [⟨⟨0, 3, some ("foo".toList)⟩, "A"⟩]⟩]⟩

/-! ### Lemmas about the trim loops -/

lemma trimLeftGo_ge (text : List Char) (e : Nat) :
    ∀ (f b : Nat), b ≤ trimLeftGo text e b f := by
  intro f
  induction f with
  | zero => intro b; simp [trimLeftGo]
  | succ f ih =>
    intro b
    simp only [trimLeftGo]
    split
    · split
      · exact le_trans (Nat.le_succ b) (ih (b + 1))
      · exact le_refl b
    · exact le_refl b

lemma trimLeftGo_le (text : List Char) (e : Nat) :
    ∀ (f b : Nat), b ≤ e → trimLeftGo text e b f ≤ e := by
  intro f
  induction f with
  | zero => intro b hb; simpa [trimLeftGo] using hb
  | succ f ih =>
    intro b hb
    simp only [trimLeftGo]
    split
    · split
      · exact ih (b + 1) (by omega)
      · exact hb
    · exact hb

lemma trimLeftGo_stop (text : List Char) (e : Nat) :
    ∀ (f b : Nat), b ≤ e → e - b ≤ f →
      trimLeftGo text e b f = e ∨ isTrimL (charAt text (trimLeftGo text e b f)) = false := by
  intro f
  induction f with
  | zero =>
    intro b hb hf
    left
    simp only [trimLeftGo]
    omega
  | succ f ih =>
    intro b hb hf
    simp only [trimLeftGo]
    split
    · split
      · exact ih (b + 1) (by omega) (by omega)
      · next hL => right; simpa using hL
    · left; omega

lemma trimLeftGo_mem (text : List Char) (e : Nat) :
    ∀ (f b i : Nat), b ≤ i → i < trimLeftGo text e b f →
      isTrimL (charAt text i) = true := by
  intro f
  induction f with
  | zero =>
    intro b i hbi hi
    simp only [trimLeftGo] at hi
    omega
  | succ f ih =>
    intro b i hbi hi
    simp only [trimLeftGo] at hi
    by_cases hbe : b < e
    · simp only [hbe, if_true] at hi
      by_cases hL : isTrimL (charAt text b) = true
      · simp only [hL, if_true] at hi
        rcases Nat.eq_or_lt_of_le hbi with h | h
        · exact h ▸ hL
        · exact ih (b + 1) i h hi
      · simp only [Bool.not_eq_true] at hL
        simp [hL] at hi
        omega
    · simp [hbe] at hi
      omega

lemma trimRightGo_le (text : List Char) (b : Nat) :
    ∀ (f e : Nat), trimRightGo text b e f ≤ e := by
  intro f
  induction f with
  | zero => intro e; simp [trimRightGo]
  | succ f ih =>
    intro e
    simp only [trimRightGo]
    split
    · split
      · exact le_trans (ih (e - 1)) (by omega)
      · exact le_refl e
    · exact le_refl e

lemma trimRightGo_ge (text : List Char) (b : Nat) :
    ∀ (f e : Nat), b ≤ e → b ≤ trimRightGo text b e f := by
  intro f
  induction f with
  | zero => intro e he; simpa [trimRightGo] using he
  | succ f ih =>
    intro e he
    simp only [trimRightGo]
    split
    · split
      · exact ih (e - 1) (by omega)
      · exact he
    · exact he

lemma trimRightGo_stop (text : List Char) (b : Nat) :
    ∀ (f e : Nat), b ≤ e → e - b ≤ f →
      trimRightGo text b e f = b ∨
        isTrimR (charAt text (trimRightGo text b e f - 1)) = false := by
  intro f
  induction f with
  | zero =>
    intro e he hf
    left
    simp only [trimRightGo]
    omega
  | succ f ih =>
    intro e he hf
    simp only [trimRightGo]
    split
    · split
      · exact ih (e - 1) (by omega) (by omega)
      · next hR => right; simpa using hR
    · left; omega

lemma trimRightGo_mem (text : List Char) (b : Nat) :
    ∀ (f e i : Nat), trimRightGo text b e f ≤ i → i < e →
      isTrimR (charAt text i) = true := by
  intro f
  induction f with
  | zero =>
    intro e i hi hie
    simp only [trimRightGo] at hi
    omega
  | succ f ih =>
    intro e i hi hie
    simp only [trimRightGo] at hi
    by_cases hbe : b < e
    · simp only [hbe, if_true] at hi
      by_cases hR : isTrimR (charAt text (e - 1)) = true
      · simp only [hR, if_true] at hi
        by_cases hlast : i = e - 1
        · exact hlast ▸ hR
        · exact ih (e - 1) i hi (by omega)
      · simp only [Bool.not_eq_true] at hR
        simp [hR] at hi
        omega
    · simp [hbe] at hi
      omega

lemma pyTrimLeft_eq_self (text : List Char) (b e : Nat)
    (h : e ≤ b ∨ isTrimL (charAt text b) = false) : pyTrimLeft text b e = b := by
  rcases h with h | h
  · have : e - b = 0 := by omega
    simp [pyTrimLeft, this, trimLeftGo]
  · unfold pyTrimLeft
    cases hf : e - b with
    | zero => simp [trimLeftGo]
    | succ f =>
      simp only [trimLeftGo]
      have hbe : b < e := by omega
      simp [hbe, h]

lemma pyTrimRight_eq_self (text : List Char) (b e : Nat)
    (h : e ≤ b ∨ isTrimR (charAt text (e - 1)) = false) : pyTrimRight text b e = e := by
  rcases h with h | h
  · have : e - b = 0 := by omega
    simp [pyTrimRight, this, trimRightGo]
  · unfold pyTrimRight
    cases hf : e - b with
    | zero => simp [trimRightGo]
    | succ f =>
      simp only [trimRightGo]
      have hbe : b < e := by omega
      simp [hbe, h]

lemma doTrim_begin (text : List Char) (s : Span) :
    (doTrim text s).begin = pyTrimLeft text s.begin s.«end» := rfl

lemma doTrim_end (text : List Char) (s : Span) :
    (doTrim text s).«end» = pyTrimRight text (pyTrimLeft text s.begin s.«end») s.«end» := rfl

lemma doTrim_covered (text : List Char) (s : Span) :
    (doTrim text s).covered_text =
      if truthy s.covered_text then
        some (pyslice text (doTrim text s).begin (doTrim text s).«end»)
      else none := rfl

/-- A second `_do_trim` pass is the identity, provided the first pass did not
leave an empty-string covered text (the Python truthiness corner). -/
lemma doTrim_idem (text : List Char) (s : Span)
    (h : (doTrim text s).covered_text ≠ some []) :
    doTrim text (doTrim text s) = doTrim text s := by
  have hnb := doTrim_begin text s
  have hne := doTrim_end text s
  set nb := pyTrimLeft text s.begin s.«end» with hnbdef
  set ne := pyTrimRight text nb s.«end» with hnedef
  have hkey : ne ≤ nb ∨ (nb = s.«end» ∨ isTrimL (charAt text nb) = false) ∧
      (ne = nb ∨ isTrimR (charAt text (ne - 1)) = false) := by
    by_cases hbe : s.begin ≤ s.«end»
    · right
      constructor
      · exact trimLeftGo_stop text s.«end» (s.«end» - s.begin) s.begin hbe (le_refl _)
      · have hnb_le : nb ≤ s.«end» := trimLeftGo_le text s.«end» _ s.begin hbe
        exact trimRightGo_stop text nb (s.«end» - nb) s.«end» hnb_le (le_refl _)
    · left
      have h1 : nb = s.begin := by
        rw [hnbdef]
        exact pyTrimLeft_eq_self text s.begin s.«end» (Or.inl (by omega))
      have h2 : ne = s.«end» := by
        rw [hnedef]
        exact pyTrimRight_eq_self text nb s.«end» (Or.inl (by omega))
      omega
  have hb2 : pyTrimLeft text nb ne = nb := by
    apply pyTrimLeft_eq_self
    rcases hkey with h' | ⟨hl, _⟩
    · exact Or.inl h'
    · rcases hl with h' | h'
      · left
        have : ne ≤ s.«end» := trimRightGo_le text nb _ s.«end»
        omega
      · exact Or.inr h'
  have he2 : pyTrimRight text nb ne = ne := by
    apply pyTrimRight_eq_self
    rcases hkey with h' | ⟨_, hr⟩
    · exact Or.inl h'
    · rcases hr with h' | h'
      · left; omega
      · exact Or.inr h'
  have hB : (doTrim text (doTrim text s)).begin = (doTrim text s).begin := by
    rw [doTrim_begin text (doTrim text s), hnb, hne, hb2]
  have hE : (doTrim text (doTrim text s)).«end» = (doTrim text s).«end» := by
    rw [doTrim_end text (doTrim text s), hnb, hne, hb2, he2]
  have hCov : (doTrim text (doTrim text s)).covered_text = (doTrim text s).covered_text := by
    rw [doTrim_covered text (doTrim text s), hB, hE, hnb, hne]
    cases htr : truthy s.covered_text with
    | false =>
      have hc : (doTrim text s).covered_text = none := by
        rw [doTrim_covered, htr]; simp
      rw [hc]
      simp [truthy]
    | true =>
      have hc : (doTrim text s).covered_text = some (pyslice text nb ne) := by
        rw [doTrim_covered, htr, hnb, hne]; simp
      have hw : pyslice text nb ne ≠ [] := by
        intro hcontra
        exact h (by rw [hc, hcontra])
      rw [hc]
      cases hx : pyslice text nb ne with
      | nil => exact absurd hx hw
      | cons a l => simp [truthy]
  cases hd2 : doTrim text (doTrim text s) with
  | mk b2 e2 c2 =>
    cases hd1 : doTrim text s with
    | mk b1 e1 c1 =>
      rw [hd2, hd1] at hB hE hCov
      simp_all

/-- The changed-span test in `trim_annotations_in_note` is immaterial for the
note value: replacing an annotation by itself when the span is unchanged
equals always rebuilding. -/
lemma trimAnnotationsInNote_eq (note : Note) :
    trimAnnotationsInNote note =
      { note with annotations := note.annotations.map (fun cur =>
          { cur with span := doTrim note.text cur.span }) } := by
  unfold trimAnnotationsInNote
  congr 1
  apply List.map_congr_left
  intro a _
  by_cases hs : doTrim note.text a.span = a.span
  · rw [hs, if_pos rfl]
  · simp only [if_neg hs]

/-- A second trim pass over a note is the identity, provided no annotation of
the once-trimmed note carries an empty-string covered text. -/
lemma trimNote_idem (note : Note)
    (h : ∀ a ∈ (trimAnnotationsInNote note).annotations, a.span.covered_text ≠ some []) :
    trimAnnotationsInNote (trimAnnotationsInNote note) = trimAnnotationsInNote note := by
  rw [trimAnnotationsInNote_eq note] at h ⊢
  rw [trimAnnotationsInNote_eq]
  simp only at h ⊢
  congr 1
  rw [List.map_map]
  apply List.map_congr_left
  intro a ha
  have hmem : ({ a with span := doTrim note.text a.span } : Annotation) ∈
      note.annotations.map (fun cur => { cur with span := doTrim note.text cur.span }) :=
    List.mem_map_of_mem _ ha
  have hne := h _ hmem
  simp only [Function.comp_apply]
  have : doTrim note.text (doTrim note.text a.span) = doTrim note.text a.span :=
    doTrim_idem note.text a.span hne
  simp [this]

/-! ### Lemmas about merge-adjacent -/

/-- Weakly sorted by span begin (adjacent pairs). -/
def sortedB (l : List Annotation) : Prop :=
  List.Chain' (fun x y => x.span.begin ≤ y.span.begin) l

/-- No adjacent pair of the list is merge-eligible. -/
def irredB (note_text : List Char) (l : List Annotation) : Prop :=
  List.Chain' (fun x y => mergeable note_text x y = false) l

lemma insertAnn_sorted (a : Annotation) (l : List Annotation) (h : sortedB l) :
    sortedB (insertAnn a l) := by
  induction l with
  | nil => simp [insertAnn, sortedB]
  | cons b rest ih =>
    simp only [insertAnn]
    by_cases hab : a.span.begin ≤ b.span.begin
    · simp only [if_pos hab]
      exact List.Chain'.cons hab h
    · simp only [if_neg hab]
      have htail : sortedB rest := (List.chain'_cons'.mp h).2
      have hins := ih htail
      rw [sortedB, List.chain'_cons']
      refine ⟨?_, hins⟩
      intro y hy
      cases rest with
      | nil =>
        simp [insertAnn] at hy
        subst hy
        omega
      | cons c r =>
        simp only [insertAnn] at hy
        by_cases hac : a.span.begin ≤ c.span.begin
        · simp only [if_pos hac] at hy
          simp at hy
          subst hy
          omega
        · simp only [if_neg hac] at hy
          simp at hy
          subst hy
          exact (List.chain'_cons.mp h).1

lemma sortByBegin_sorted (l : List Annotation) : sortedB (sortByBegin l) := by
  induction l with
  | nil => simp [sortByBegin, sortedB]
  | cons a rest ih => exact insertAnn_sorted a _ ih

lemma sortByBegin_eq_self (l : List Annotation) (h : sortedB l) : sortByBegin l = l := by
  induction l with
  | nil => rfl
  | cons a rest ih =>
    have htail : sortedB rest := (List.chain'_cons'.mp h).2
    simp only [sortByBegin, ih htail]
    cases rest with
    | nil => rfl
    | cons b r =>
      have hab : a.span.begin ≤ b.span.begin := (List.chain'_cons.mp h).1
      simp [insertAnn, hab]

lemma mergeAnn_begin (left right : Annotation) (t : List Char) :
    (mergeAnn left right t).span.begin = left.span.begin := rfl

lemma mergeAnn_end (left right : Annotation) (t : List Char) :
    (mergeAnn left right t).span.«end» = right.span.«end» := rfl

lemma mergeAnn_code (left right : Annotation) (t : List Char) :
    (mergeAnn left right t).billing_code = left.billing_code := rfl

/-- The head of the accumulation loop's output keeps the seed's begin and
billing code (merging into the accumulator preserves both). -/
lemma goMerge_head (t : List Char) (a : Annotation) (l : List Annotation) :
    ∃ h rest, goMerge t a l = h :: rest ∧
      h.span.begin = a.span.begin ∧ h.billing_code = a.billing_code := by
  induction l generalizing a with
  | nil => exact ⟨a, [], rfl, rfl, rfl⟩
  | cons cur rest ih =>
    simp only [goMerge]
    by_cases hm : mergeable t a cur = true
    · simp only [if_pos hm]
      obtain ⟨h, r, heq, hb, hc⟩ := ih (mergeAnn a cur t)
      exact ⟨h, r, heq, by rw [hb, mergeAnn_begin], by rw [hc, mergeAnn_code]⟩
    · simp only [if_neg hm]
      exact ⟨a, goMerge t cur rest, rfl, rfl, rfl⟩

lemma goMerge_sorted (t : List Char) (a : Annotation) (l : List Annotation)
    (h : sortedB (a :: l)) : sortedB (goMerge t a l) := by
  induction l generalizing a with
  | nil => simp [goMerge, sortedB]
  | cons cur rest ih =>
    have hac : a.span.begin ≤ cur.span.begin := (List.chain'_cons.mp h).1
    have htail : sortedB (cur :: rest) := (List.chain'_cons.mp h).2
    simp only [goMerge]
    by_cases hm : mergeable t a cur = true
    · simp only [if_pos hm]
      apply ih
      rw [sortedB, List.chain'_cons']
      constructor
      · intro y hy
        have := (List.chain'_cons'.mp htail).1 y hy
        rw [mergeAnn_begin]
        omega
      · exact (List.chain'_cons'.mp htail).2
    · simp only [if_neg hm]
      obtain ⟨hd, r, heq, hb, _⟩ := goMerge_head t cur rest
      rw [heq]
      rw [sortedB, List.chain'_cons']
      constructor
      · intro y hy
        simp at hy
        subst hy
        omega
      · rw [← heq]
        exact ih cur htail

lemma goMerge_irred (t : List Char) (a : Annotation) (l : List Annotation) :
    irredB t (goMerge t a l) := by
  induction l generalizing a with
  | nil => simp [goMerge, irredB]
  | cons cur rest ih =>
    simp only [goMerge]
    by_cases hm : mergeable t a cur = true
    · simp only [if_pos hm]
      exact ih (mergeAnn a cur t)
    · simp only [if_neg hm]
      obtain ⟨hd, r, heq, hb, hc⟩ := goMerge_head t cur rest
      rw [heq, irredB, List.chain'_cons']
      constructor
      · intro y hy
        simp at hy
        subst hy
        have : mergeable t a hd = mergeable t a cur := by
          unfold mergeable
          rw [hb, hc]
        rw [this]
        simpa using hm
      · rw [← heq]
        exact ih cur

lemma goMerge_of_irred (t : List Char) (a : Annotation) (l : List Annotation)
    (h : irredB t (a :: l)) : goMerge t a l = a :: l := by
  induction l generalizing a with
  | nil => rfl
  | cons cur rest ih =>
    have hm : mergeable t a cur = false := (List.chain'_cons.mp h).1
    simp only [goMerge, hm]
    simp only [Bool.false_eq_true, if_false]
    rw [ih cur (List.chain'_cons.mp h).2]

/-- The merged list is weakly sorted and has no adjacent merge-eligible
pair. -/
lemma mergeAdjacent_invariant (anns : List Annotation) (t : List Char) :
    sortedB (mergeAdjacent anns t) ∧ irredB t (mergeAdjacent anns t) := by
  unfold mergeAdjacent
  by_cases hlen : anns.length < 2
  · simp only [if_pos hlen]
    match anns, hlen with
    | [], _ => exact ⟨List.chain'_nil, List.chain'_nil⟩
    | [a], _ => exact ⟨List.chain'_singleton a, List.chain'_singleton a⟩
  · simp only [if_neg hlen]
    have hs := sortByBegin_sorted anns
    cases hsort : sortByBegin anns with
    | nil => exact ⟨List.chain'_nil, List.chain'_nil⟩
    | cons first rest =>
      rw [hsort] at hs
      exact ⟨goMerge_sorted t first rest hs, goMerge_irred t first rest⟩

/-- Merge-adjacent is the identity on a weakly sorted, adjacent-irreducible
list. -/
lemma mergeAdjacent_of_invariant (anns : List Annotation) (t : List Char)
    (hs : sortedB anns) (hi : irredB t anns) : mergeAdjacent anns t = anns := by
  unfold mergeAdjacent
  by_cases hlen : anns.length < 2
  · simp only [if_pos hlen]
  · simp only [if_neg hlen]
    rw [sortByBegin_eq_self anns hs]
    cases anns with
    | nil => rfl
    | cons first rest => exact goMerge_of_irred t first rest hi

/-- `merge_adjacent_in_note` is idempotent. -/
lemma mergeNote_idem (note : Note) :
    mergeAdjacentInNote (mergeAdjacentInNote note) = mergeAdjacentInNote note := by
  unfold mergeAdjacentInNote
  by_cases hlen : note.annotations.length < 2
  · simp [hlen]
  · simp only [if_neg hlen]
    set new := mergeAdjacent note.annotations note.text with hnew
    by_cases hshort : new.length < note.annotations.length
    · simp only [if_pos hshort]
      by_cases hlen2 : new.length < 2
      · simp [hlen2]
      · simp only [hlen2, if_false]
        obtain ⟨hs, hi⟩ := mergeAdjacent_invariant note.annotations note.text
        rw [← hnew] at hs hi
        have hfix : mergeAdjacent new note.text = new := mergeAdjacent_of_invariant new note.text hs hi
        simp [hfix]
    · simp only [if_neg hshort]
      simp only [if_neg hlen, ← hnew, if_neg hshort]

/-! ### Lemmas about the error-rate engine -/

lemma optionMapM_eq_none {α β : Type} (f : α → Option β) (l : List α) :
    optionMapM f l = none ↔ ∃ x ∈ l, f x = none := by
  induction l with
  | nil => simp [optionMapM]
  | cons x xs ih =>
    constructor
    · intro h
      simp only [optionMapM] at h
      cases hf : f x with
      | none => exact ⟨x, List.mem_cons_self x xs, hf⟩
      | some y =>
        rw [hf, Option.some_bind] at h
        cases hm : optionMapM f xs with
        | none =>
          obtain ⟨x', hx', hfx'⟩ := ih.mp hm
          exact ⟨x', List.mem_cons_of_mem x hx', hfx'⟩
        | some ys => rw [hm, Option.map_some'] at h; exact absurd h (by simp)
    · rintro ⟨x', hx', hfx'⟩
      simp only [optionMapM]
      rcases List.mem_cons.mp hx' with h | h
      · subst h; rw [hfx', Option.none_bind]
      · cases hf : f x with
        | none => rw [Option.none_bind]
        | some y =>
          rw [Option.some_bind, ih.mpr ⟨x', h, hfx'⟩, Option.map_none']

lemma optionMapM_mem_some {α β : Type} (f : α → Option β) (l : List α) (ys : List β)
    (h : optionMapM f l = some ys) : ∀ y ∈ ys, ∃ x ∈ l, f x = some y := by
  induction l generalizing ys with
  | nil =>
    simp only [optionMapM, Option.some_inj] at h
    subst h
    simp
  | cons x xs ih =>
    simp only [optionMapM] at h
    cases hf : f x with
    | none => rw [hf] at h; simp at h
    | some y0 =>
      rw [hf] at h
      rw [Option.some_bind] at h
      cases hm : optionMapM f xs with
      | none => rw [hm] at h; simp at h
      | some ys0 =>
        rw [hm, Option.map_some', Option.some_inj] at h
        subst h
        intro y hy
        rcases List.mem_cons.mp hy with hy | hy
        · exact ⟨x, List.mem_cons_self x xs, hy ▸ hf⟩
        · obtain ⟨x', hx', hfx'⟩ := ih ys0 hm y hy
          exact ⟨x', List.mem_cons_of_mem x hx', hfx'⟩

lemma tokenizeAnn_eq_none (tokenize_fn : List Char → List Span) (a : Annotation) :
    tokenizeAnn tokenize_fn a = none ↔ a.span.covered_text = none := by
  unfold tokenizeAnn
  cases a.span.covered_text <;> simp

lemma tokenizeAnns_eq_none (tokenize_fn : List Char → List Span)
    (annotations : List Annotation) :
    tokenizeAnns tokenize_fn annotations = none ↔
      ∃ a ∈ annotations, a.span.covered_text = none := by
  unfold tokenizeAnns
  rw [Option.map_eq_none', optionMapM_eq_none]
  simp [tokenizeAnn_eq_none]

lemma tokenizeAdm_eq_none (tokenize_fn : List Char → List Span) (adm : Admission) :
    tokenizeAdm tokenize_fn adm = none ↔ hasMissingCovered adm := by
  unfold tokenizeAdm hasMissingCovered
  rw [Option.map_eq_none', optionMapM_eq_none]
  constructor
  · rintro ⟨note, hnote, hnone⟩
    rw [Option.map_eq_none', tokenizeAnns_eq_none] at hnone
    obtain ⟨a, ha, hcov⟩ := hnone
    refine ⟨(note, a), ?_, hcov⟩
    simp only [pairs, List.mem_flatMap, List.mem_map]
    exact ⟨note, hnote, a, ha, rfl⟩
  · rintro ⟨pr, hpr, hcov⟩
    simp only [pairs, List.mem_flatMap, List.mem_map] at hpr
    obtain ⟨note, hnote, a, ha, hpr⟩ := hpr
    refine ⟨note, hnote, ?_⟩
    rw [Option.map_eq_none', tokenizeAnns_eq_none]
    exact ⟨a, ha, by rw [← hpr] at hcov; exact hcov⟩

lemma optionMapM_pieKey_none (adm : Admission) :
    optionMapM pieKey (pairs adm) = none ↔ hasMissingCovered adm := by
  rw [optionMapM_eq_none]
  unfold hasMissingCovered
  simp [pieKey, Option.map_eq_none']

lemma pie_eq_none (actual predicted : Admission) :
    positionIndependentError actual predicted = none ↔
      hasMissingCovered actual ∨ hasMissingCovered predicted := by
  unfold positionIndependentError
  cases h1 : optionMapM pieKey (pairs actual) with
  | none =>
    simp only [Option.none_bind]
    simp [(optionMapM_pieKey_none actual).mp h1]
  | some ks =>
    have hna : ¬ hasMissingCovered actual := by
      rw [← optionMapM_pieKey_none actual, h1]; simp
    cases h2 : optionMapM pieKey (pairs predicted) with
    | none =>
      simp only [Option.some_bind, Option.map_none']
      simp [(optionMapM_pieKey_none predicted).mp h2]
    | some ks' =>
      have hnp : ¬ hasMissingCovered predicted := by
        rw [← optionMapM_pieKey_none predicted, h2]; simp
      simp [hna, hnp]

lemma tem_eq_none (actual predicted : Admission) (tokenize_fn : List Char → List Span) :
    tokenExactMatchError actual predicted tokenize_fn = none ↔
      hasMissingCovered actual ∨ hasMissingCovered predicted := by
  unfold tokenExactMatchError
  cases h1 : tokenizeAdm tokenize_fn actual with
  | none =>
    simp only [Option.none_bind]
    simp [(tokenizeAdm_eq_none tokenize_fn actual).mp h1]
  | some a' =>
    have hna : ¬ hasMissingCovered actual := by
      rw [← tokenizeAdm_eq_none tokenize_fn actual, h1]; simp
    cases h2 : tokenizeAdm tokenize_fn predicted with
    | none =>
      simp only [Option.some_bind, Option.map_none']
      simp [(tokenizeAdm_eq_none tokenize_fn predicted).mp h2]
    | some p' =>
      have hnp : ¬ hasMissingCovered predicted := by
        rw [← tokenizeAdm_eq_none tokenize_fn predicted, h2]; simp
      simp [hna, hnp]

lemma tokenize_covered_some (text : List Char) :
    ∀ s ∈ tokenize text, s.covered_text ≠ none := by
  intro s hs
  unfold tokenize at hs
  have hs' := List.mem_of_mem_filter hs
  unfold rawTokenSpans at hs'
  simp only [List.mem_map] at hs'
  obtain ⟨p, _, hp⟩ := hs'
  rw [← hp]
  simp

lemma tokenizeAnn_covered (a : Annotation) (l : List Annotation)
    (h : tokenizeAnn tokenize a = some l) :
    ∀ a' ∈ l, a'.span.covered_text ≠ none := by
  unfold tokenizeAnn at h
  cases hc : a.span.covered_text with
  | none => rw [hc] at h; simp at h
  | some t =>
    rw [hc] at h
    simp only [Option.some_inj] at h
    intro a' ha'
    rw [← h] at ha'
    simp only [List.mem_map] at ha'
    obtain ⟨sp, hsp, hmk⟩ := ha'
    rw [← hmk]
    exact tokenize_covered_some t sp hsp

lemma tokenizeAdm_no_missing (adm adm' : Admission)
    (h : tokenizeAdm tokenize adm = some adm') : ¬ hasMissingCovered adm' := by
  unfold tokenizeAdm at h
  rw [Option.map_eq_some'] at h
  obtain ⟨ns, hns, hadm'⟩ := h
  rintro ⟨pr, hpr, hcov⟩
  rw [← hadm'] at hpr
  simp only [pairs, List.mem_flatMap, List.mem_map] at hpr
  obtain ⟨note', hnote', a', ha', hpr⟩ := hpr
  obtain ⟨note, _, hg⟩ := optionMapM_mem_some _ adm.notes ns hns note' hnote'
  rw [Option.map_eq_some'] at hg
  obtain ⟨l, hl, hnote'eq⟩ := hg
  unfold tokenizeAnns at hl
  rw [Option.map_eq_some'] at hl
  obtain ⟨ll, hll, hflat⟩ := hl
  rw [← hnote'eq] at ha'
  simp only at ha'
  rw [← hflat] at ha'
  rw [List.mem_flatten] at ha'
  obtain ⟨la, hla, ha'mem⟩ := ha'
  obtain ⟨a0, _, ha0⟩ := optionMapM_mem_some _ note.annotations ll hll la hla
  have := tokenizeAnn_covered a0 la ha0 a' ha'mem
  rw [← hpr] at hcov
  exact this hcov

lemma tpie_eq_none (actual predicted : Admission) :
    tokenPositionIndependentError actual predicted tokenize = none ↔
      hasMissingCovered actual ∨ hasMissingCovered predicted := by
  unfold tokenPositionIndependentError
  cases h1 : tokenizeAdm tokenize actual with
  | none =>
    simp only [Option.none_bind]
    simp [(tokenizeAdm_eq_none tokenize actual).mp h1]
  | some a' =>
    have hna : ¬ hasMissingCovered actual := by
      rw [← tokenizeAdm_eq_none tokenize actual, h1]; simp
    cases h2 : tokenizeAdm tokenize predicted with
    | none =>
      simp only [Option.some_bind, Option.none_bind]
      simp [(tokenizeAdm_eq_none tokenize predicted).mp h2]
    | some p' =>
      have hnp : ¬ hasMissingCovered predicted := by
        rw [← tokenizeAdm_eq_none tokenize predicted, h2]; simp
      simp only [Option.some_bind]
      rw [pie_eq_none]
      have hna' := tokenizeAdm_no_missing actual a' h1
      have hnp' := tokenizeAdm_no_missing predicted p' h2
      constructor
      · rintro (h | h)
        · exact absurd h hna'
        · exact absurd h hnp'
      · rintro (h | h)
        · exact absurd h hna
        · exact absurd h hnp

lemma addER_comm (x y : ErrorRate) : addER x y = addER y x := by
  simp only [addER, ErrorRate.mk.injEq]
  omega

lemma addER_assoc (x y z : ErrorRate) : addER (addER x y) z = addER x (addER y z) := by
  simp only [addER, ErrorRate.mk.injEq]
  omega

lemma observe_comm (tokenize_fn : List Char → List Span) (s : AllErrorRates)
    (a p a' p' : Admission) :
    (observe tokenize_fn s a p).bind (fun t => observe tokenize_fn t a' p') =
      (observe tokenize_fn s a' p').bind (fun t => observe tokenize_fn t a p) := by
  unfold observe
  cases positionIndependentError a p <;>
    cases tokenExactMatchError a p tokenize_fn <;>
      cases tokenPositionIndependentError a p tokenize_fn <;>
        cases positionIndependentError a' p' <;>
          cases tokenExactMatchError a' p' tokenize_fn <;>
            cases tokenPositionIndependentError a' p' tokenize_fn <;>
              simp only [Option.some_bind, Option.none_bind, Option.map_some',
                Option.map_none', Option.some_inj, addER, AllErrorRates.mk.injEq,
                ErrorRate.mk.injEq]
  omega

lemma observeAll_perm (tokenize_fn : List Char → List Span)
    {l l' : List (Admission × Admission)} (hp : l.Perm l') :
    ∀ s, observeAll tokenize_fn s l = observeAll tokenize_fn s l' := by
  induction hp with
  | nil => intro s; rfl
  | cons x hlp ih =>
    intro s
    obtain ⟨a, p⟩ := x
    simp only [observeAll]
    cases observe tokenize_fn s a p with
    | none => rfl
    | some t => simp only [Option.some_bind]; exact ih t
  | swap x y l =>
    intro s
    obtain ⟨a, p⟩ := x
    obtain ⟨a', p'⟩ := y
    simp only [observeAll]
    rw [← Option.bind_assoc, ← Option.bind_assoc, observe_comm]
  | trans h1 h2 ih1 ih2 => intro s; rw [ih1 s, ih2 s]

/-! ### Lemmas about the derived metrics -/

lemma eps_pos : (0 : ℚ) < eps := by norm_num [eps]

lemma precision_bounds (e : ErrorRate) : 0 ≤ precision e ∧ precision e ≤ 1 := by
  unfold precision
  have h0 : (0:ℚ) ≤ (e.true_positives : ℚ) := Nat.cast_nonneg _
  have h0' : (0:ℚ) ≤ (e.false_positives : ℚ) := Nat.cast_nonneg _
  have h1 : (0:ℚ) < (e.true_positives : ℚ) + (e.false_positives : ℚ) + eps := by
    have := eps_pos; linarith
  constructor
  · exact div_nonneg h0 (le_of_lt h1)
  · rw [div_le_one h1]
    have := eps_pos; linarith

lemma recallER_bounds (e : ErrorRate) : 0 ≤ recallER e ∧ recallER e ≤ 1 := by
  unfold recallER
  have h0 : (0:ℚ) ≤ (e.true_positives : ℚ) := Nat.cast_nonneg _
  have h0' : (0:ℚ) ≤ (e.false_negatives : ℚ) := Nat.cast_nonneg _
  have h1 : (0:ℚ) < (e.true_positives : ℚ) + (e.false_negatives : ℚ) + eps := by
    have := eps_pos; linarith
  constructor
  · exact div_nonneg h0 (le_of_lt h1)
  · rw [div_le_one h1]
    have := eps_pos; linarith

lemma f1_bounds (e : ErrorRate) : 0 ≤ f1_score e ∧ f1_score e ≤ 1 := by
  obtain ⟨hp0, hp1⟩ := precision_bounds e
  obtain ⟨hr0, hr1⟩ := recallER_bounds e
  unfold f1_score
  have heps := eps_pos
  have hden : (0:ℚ) < precision e + recallER e + eps := by linarith
  constructor
  · exact div_nonneg (by nlinarith) (le_of_lt hden)
  · rw [div_le_one hden]
    have h1 : (0:ℚ) ≤ precision e * (1 - recallER e) := mul_nonneg hp0 (by linarith)
    have h2 : (0:ℚ) ≤ recallER e * (1 - precision e) := mul_nonneg hr0 (by linarith)
    nlinarith [h1, h2]

/-! ### Characterization of a trimmed span -/

lemma pyTrimLeft_ge (text : List Char) (b e : Nat) : b ≤ pyTrimLeft text b e :=
  trimLeftGo_ge text e (e - b) b

lemma pyTrimLeft_le (text : List Char) (b e : Nat) (h : b ≤ e) : pyTrimLeft text b e ≤ e :=
  trimLeftGo_le text e (e - b) b h

lemma pyTrimLeft_mem (text : List Char) (b e i : Nat) (h1 : b ≤ i)
    (h2 : i < pyTrimLeft text b e) : isTrimL (charAt text i) = true :=
  trimLeftGo_mem text e (e - b) b i h1 h2

lemma pyTrimLeft_stop (text : List Char) (b e : Nat) (h : b ≤ e) :
    pyTrimLeft text b e = e ∨ isTrimL (charAt text (pyTrimLeft text b e)) = false :=
  trimLeftGo_stop text e (e - b) b h (le_refl _)

lemma pyTrimRight_le (text : List Char) (b e : Nat) : pyTrimRight text b e ≤ e :=
  trimRightGo_le text b (e - b) e

lemma pyTrimRight_ge (text : List Char) (b e : Nat) (h : b ≤ e) : b ≤ pyTrimRight text b e :=
  trimRightGo_ge text b (e - b) e h

lemma pyTrimRight_mem (text : List Char) (b e i : Nat) (h1 : pyTrimRight text b e ≤ i)
    (h2 : i < e) : isTrimR (charAt text i) = true :=
  trimRightGo_mem text b (e - b) e i h1 h2

lemma pyTrimRight_stop (text : List Char) (b e : Nat) (h : b ≤ e) :
    pyTrimRight text b e = b ∨ isTrimR (charAt text (pyTrimRight text b e - 1)) = false :=
  trimRightGo_stop text b (e - b) e h (le_refl _)

/-- Full characterization of `_do_trim` on a well-formed span: the bounds
only shrink, every stripped boundary character was in its trim set, and the
loops stop exactly at a boundary character outside the set or at an empty
span. -/
lemma doTrim_spec (text : List Char) (s : Span) (h : s.begin ≤ s.«end») :
    s.begin ≤ (doTrim text s).begin ∧
    (doTrim text s).begin ≤ (doTrim text s).«end» ∧
    (doTrim text s).«end» ≤ s.«end» ∧
    (∀ i, s.begin ≤ i → i < (doTrim text s).begin → isTrimL (charAt text i) = true) ∧
    (∀ i, (doTrim text s).«end» ≤ i → i < s.«end» → isTrimR (charAt text i) = true) ∧
    ((doTrim text s).begin = s.«end» ∨
      isTrimL (charAt text (doTrim text s).begin) = false) ∧
    ((doTrim text s).«end» = (doTrim text s).begin ∨
      isTrimR (charAt text ((doTrim text s).«end» - 1)) = false) := by
  rw [doTrim_begin, doTrim_end]
  have h2 : pyTrimLeft text s.begin s.«end» ≤ s.«end» := pyTrimLeft_le text _ _ h
  refine ⟨pyTrimLeft_ge text _ _, pyTrimRight_ge text _ _ h2, pyTrimRight_le text _ _,
    ?_, ?_, pyTrimLeft_stop text _ _ h, pyTrimRight_stop text _ _ h2⟩
  · intro i hi1 hi2
    exact pyTrimLeft_mem text s.begin s.«end» i hi1 hi2
  · intro i hi1 hi2
    exact pyTrimRight_mem text (pyTrimLeft text s.begin s.«end») s.«end» i hi1 hi2

/-! ### Lemma about the tokenizer's numeric filter -/

lemma keepToken_iff (s : Span) :
    keepToken s = true ↔
      ¬(pyIsDigit (s.covered_text.getD []) = true ∧ 10 < digitsVal (s.covered_text.getD [])) := by
  cases h : pyIsDigit (s.covered_text.getD []) <;> simp [keepToken, h]

/-! ### Claim theorems -/

/-- C1: merge-adjacent sorts by span begin and merges a pair exactly when the
billing codes are equal and the text strictly between the spans is all
non-breaking, the merged span being `[left.begin, right.end]`; concretely,
two same-code annotations `[0,3)` and `[5,8)` over `"foo, bar"` merge into a
single annotation `[0,8)`, while the same spans with different billing codes
do not merge. -/
theorem C1_merge_adjacent_behavior :
    (∀ (t : List Char) (a b : Annotation), a.span.begin ≤ b.span.begin →
      mergeAdjacent [a, b] t =
        if a.billing_code = b.billing_code ∧
            isNonBreaking (pyslice t a.span.«end» b.span.begin) = true
        then [mergeAnn a b t] else [a, b]) ∧
    (∀ (left right : Annotation) (t : List Char),
      (mergeAnn left right t).span.begin = left.span.begin ∧
      (mergeAnn left right t).span.«end» = right.span.«end» ∧
      (mergeAnn left right t).billing_code = left.billing_code) ∧
    mergeAdjacentInNote c1note = c1merged ∧
    mergeAdjacentInNote c1noteDiff = c1noteDiff := by
  refine ⟨?_, fun left right t => ⟨rfl, rfl, rfl⟩, by decide, by decide⟩
  intro t a b hab
  have hlen : ¬([a, b].length < 2) := by simp
  have hsort : sortByBegin [a, b] = [a, b] := by
    simp [sortByBegin, insertAnn, hab]
  unfold mergeAdjacent
  rw [if_neg hlen, hsort]
  simp only [goMerge]
  by_cases hm : mergeable t a b = true
  · have hcond : a.billing_code = b.billing_code ∧
        isNonBreaking (pyslice t a.span.«end» b.span.begin) = true := by
      have hm' := hm
      unfold mergeable at hm'
      simpa [Bool.and_eq_true, beq_iff_eq] using hm'
    rw [if_pos hm, if_pos hcond]
  · have hcond : ¬(a.billing_code = b.billing_code ∧
        isNonBreaking (pyslice t a.span.«end» b.span.begin) = true) := by
      unfold mergeable at hm
      simpa [Bool.and_eq_true, beq_iff_eq] using hm
    rw [if_neg hm, if_neg hcond]

/-- Witness for C1: the pair characterization applied to the two same-code
annotations of the concrete example. -/
theorem C1_merge_adjacent_behavior_witness :
    mergeAdjacent [c1wa, c1wb] ("foo, bar".toList) =
      if c1wa.billing_code = c1wb.billing_code ∧
          isNonBreaking (pyslice ("foo, bar".toList) c1wa.span.«end» c1wb.span.begin) = true
      then [mergeAnn c1wa c1wb ("foo, bar".toList)] else [c1wa, c1wb] :=
  C1_merge_adjacent_behavior.1 ("foo, bar".toList) c1wa c1wb (by decide)

/-- C2: trim only shrinks a span inward, strips exactly characters of the
respective trim sets, and stops at the first boundary character outside the
set or when the span becomes empty; consequently `[0,5)` over `"(abc)"` is
left unchanged (leading `"("` is not in the left set, trailing `")"` is not
in the right set). -/
theorem C2_trim_behavior :
    (∀ (text : List Char) (s : Span), s.begin ≤ s.«end» →
      s.begin ≤ (doTrim text s).begin ∧
      (doTrim text s).begin ≤ (doTrim text s).«end» ∧
      (doTrim text s).«end» ≤ s.«end» ∧
      (∀ i, s.begin ≤ i → i < (doTrim text s).begin → isTrimL (charAt text i) = true) ∧
      (∀ i, (doTrim text s).«end» ≤ i → i < s.«end» → isTrimR (charAt text i) = true) ∧
      ((doTrim text s).begin = s.«end» ∨
        isTrimL (charAt text (doTrim text s).begin) = false) ∧
      ((doTrim text s).«end» = (doTrim text s).begin ∨
        isTrimR (charAt text ((doTrim text s).«end» - 1)) = false)) ∧
    trimAnnotationsInNote c2note = c2note :=
  ⟨doTrim_spec, by decide⟩

/-- Witness for C2: the trim characterization at the concrete `"(abc)"`
span. -/
theorem C2_trim_behavior_witness :
    c2span.begin ≤ (doTrim ("(abc)".toList) c2span).begin ∧
    (doTrim ("(abc)".toList) c2span).begin ≤ (doTrim ("(abc)".toList) c2span).«end» ∧
    (doTrim ("(abc)".toList) c2span).«end» ≤ c2span.«end» ∧
    (∀ i, c2span.begin ≤ i → i < (doTrim ("(abc)".toList) c2span).begin →
      isTrimL (charAt ("(abc)".toList) i) = true) ∧
    (∀ i, (doTrim ("(abc)".toList) c2span).«end» ≤ i → i < c2span.«end» →
      isTrimR (charAt ("(abc)".toList) i) = true) ∧
    ((doTrim ("(abc)".toList) c2span).begin = c2span.«end» ∨
      isTrimL (charAt ("(abc)".toList) (doTrim ("(abc)".toList) c2span).begin) = false) ∧
    ((doTrim ("(abc)".toList) c2span).«end» = (doTrim ("(abc)".toList) c2span).begin ∨
      isTrimR (charAt ("(abc)".toList) ((doTrim ("(abc)".toList) c2span).«end» - 1)) = false) :=
  C2_trim_behavior.1 ("(abc)".toList) c2span (by decide)

/-- C3: tokenizing the empty string yields the empty sequence, and the
numeric post-filter discards exactly the tokens whose covered text is purely
numeric with value greater than 10: `"abc 12 123"` yields only `"abc"`, and
`"abc 7 123"` yields `"abc"` and `"7"`. -/
theorem C3_tokenize_empty_and_numeric_filter :
    tokenize [] = [] ∧
    tokenize ("abc 12 123".toList) = [⟨0, 3, some ("abc".toList)⟩] ∧
    tokenize ("abc 7 123".toList) =
      [⟨0, 3, some ("abc".toList)⟩, ⟨4, 5, some ("7".toList)⟩] ∧
    (∀ (text : List Char) (s : Span),
      s ∈ tokenize text ↔ s ∈ rawTokenSpans text ∧
        ¬(pyIsDigit (s.covered_text.getD []) = true ∧
          10 < digitsVal (s.covered_text.getD []))) := by
  refine ⟨by decide, by decide, by decide, ?_⟩
  intro text s
  rw [tokenize, List.mem_filter, keepToken_iff]

/-- C4: the token-level error computations fail (raise) exactly when some
annotation of either admission has an absent covered text, and complete
normally otherwise. -/
theorem C4_token_metrics_missing_text :
    ∀ (actual predicted : Admission),
      (∀ tokenize_fn, tokenExactMatchError actual predicted tokenize_fn = none ↔
        hasMissingCovered actual ∨ hasMissingCovered predicted) ∧
      (tokenPositionIndependentError actual predicted tokenize = none ↔
        hasMissingCovered actual ∨ hasMissingCovered predicted) :=
  fun actual predicted =>
    ⟨fun tokenize_fn => tem_eq_none actual predicted tokenize_fn,
     tpie_eq_none actual predicted⟩

/-- C5: merge-adjacent is idempotent at the note level: applying
`merge_adjacent_in_note` to its own output returns that output unchanged. -/
theorem C5_merge_adjacent_idempotent :
    ∀ note : Note,
      mergeAdjacentInNote (mergeAdjacentInNote note) = mergeAdjacentInNote note :=
  mergeNote_idem

/-- Counterexample for C6: trimming the note `" "` with annotation `[0,1)`
(covered text `" "`) is not idempotent — the first pass yields the
zero-length span `[1,1)` with covered text `""`, and the second pass turns
that covered text into `None` (Python truthiness), changing the note. -/
theorem C6_trim_not_idempotent_counterexample :
    trimAnnotationsInNote (trimAnnotationsInNote c6note) ≠ trimAnnotationsInNote c6note := by
  decide

/-- C6 (amended): trim is idempotent on every note none of whose once-trimmed
annotations carries an empty-string covered text (in particular, whenever no
span trims to zero length with covered text present). -/
theorem C6_trim_idempotent_amended :
    ∀ note : Note,
      (∀ a ∈ (trimAnnotationsInNote note).annotations, a.span.covered_text ≠ some []) →
      trimAnnotationsInNote (trimAnnotationsInNote note) = trimAnnotationsInNote note :=
  trimNote_idem

/-- Witness for amended C6: a note whose annotation trims to a non-empty
covered text. -/
theorem C6_trim_idempotent_amended_witness :
    (∀ a ∈ (trimAnnotationsInNote c6wnote).annotations, a.span.covered_text ≠ some []) ∧
    trimAnnotationsInNote (trimAnnotationsInNote c6wnote) = trimAnnotationsInNote c6wnote :=
  ⟨by decide, C6_trim_idempotent_amended c6wnote (by decide)⟩

/-- C7: `ErrorRate` addition is commutative and associative, and the
accumulated totals of the four accumulators are invariant under the order in
which the admission pairs are observed. -/
theorem C7_error_rate_addition_order_invariant :
    (∀ x y : ErrorRate, addER x y = addER y x) ∧
    (∀ x y z : ErrorRate, addER (addER x y) z = addER x (addER y z)) ∧
    (∀ (tokenize_fn : List Char → List Span) (s : AllErrorRates)
        (l l' : List (Admission × Admission)), l.Perm l' →
      observeAll tokenize_fn s l = observeAll tokenize_fn s l') :=
  ⟨addER_comm, addER_assoc,
   fun tokenize_fn s _ _ hp => observeAll_perm tokenize_fn hp s⟩

/-- Witness for C7: observing two concrete admission pairs in either order
accumulates the same totals. -/
theorem C7_error_rate_addition_order_invariant_witness :
    ([(c7adm1, c7adm1), (c7adm2, c7adm2)]).Perm [(c7adm2, c7adm2), (c7adm1, c7adm1)] ∧
    observeAll tokenize c7init [(c7adm1, c7adm1), (c7adm2, c7adm2)] =
      observeAll tokenize c7init [(c7adm2, c7adm2), (c7adm1, c7adm1)] :=
  ⟨List.Perm.swap _ _ _,
   C7_error_rate_addition_order_invariant.2.2 tokenize c7init _ _ (List.Perm.swap _ _ _)⟩

/-- C8: with the smoothing constant `ε = 1e-6` (modelled exactly over ℚ),
precision, recall and F1 lie within `[0, 1+ε]` for all non-negative counts,
and every denominator is non-zero even when all counts are zero. -/
theorem C8_metric_bounds :
    ∀ e : ErrorRate,
      (0 ≤ precision e ∧ precision e ≤ 1 + eps) ∧
      (0 ≤ recallER e ∧ recallER e ≤ 1 + eps) ∧
      (0 ≤ f1_score e ∧ f1_score e ≤ 1 + eps) ∧
      (e.true_positives : ℚ) + (e.false_positives : ℚ) + eps ≠ 0 ∧
      (e.true_positives : ℚ) + (e.false_negatives : ℚ) + eps ≠ 0 ∧
      precision e + recallER e + eps ≠ 0 := by
  intro e
  obtain ⟨hp0, hp1⟩ := precision_bounds e
  obtain ⟨hr0, hr1⟩ := recallER_bounds e
  obtain ⟨hf0, hf1⟩ := f1_bounds e
  have heps := eps_pos
  have htp : (0:ℚ) ≤ (e.true_positives : ℚ) := Nat.cast_nonneg _
  have hfp : (0:ℚ) ≤ (e.false_positives : ℚ) := Nat.cast_nonneg _
  have hfn : (0:ℚ) ≤ (e.false_negatives : ℚ) := Nat.cast_nonneg _
  refine ⟨⟨hp0, by linarith⟩, ⟨hr0, by linarith⟩, ⟨hf0, by linarith⟩, ?_, ?_, ?_⟩
  · intro hcontra; nlinarith
  · intro hcontra; nlinarith
  · intro hcontra; nlinarith

/-- Counterexample for C9: a left annotation whose covered text is present
but empty (`some ""`, legal for a zero-length span) yields a merged
annotation with an absent covered text — Python's truthiness check drops it —
and the full merge pass over the note does the same. -/
theorem C9_merge_covered_counterexample :
    c9left.span.covered_text.isSome = true ∧
    (mergeAnn c9left c9right ("ab cdef".toList)).span.covered_text = none ∧
    mergeAdjacentInNote c9note =
      ⟨9, "Nursing", ("ab cdef".toList), [⟨⟨2, 5, none⟩, "X"⟩]⟩ := by
  decide

/-- C9 (amended): the merged covered text is recomputed from the note text
over the merged bounds exactly when the left covered text is present and
non-empty; it is absent when the left covered text is absent or the empty
string. -/
theorem C9_merge_covered_amended :
    ∀ (left right : Annotation) (note_text : List Char),
      ((left.span.covered_text = none ∨ left.span.covered_text = some []) →
        (mergeAnn left right note_text).span.covered_text = none) ∧
      (∀ c, left.span.covered_text = some c → c ≠ [] →
        (mergeAnn left right note_text).span.covered_text =
          some (pyslice note_text left.span.begin right.span.«end»)) := by
  intro left right note_text
  constructor
  · rintro (h | h) <;> simp [mergeAnn, truthy, h]
  · intro c hc hne
    cases c with
    | nil => exact absurd rfl hne
    | cons x xs => simp [mergeAnn, truthy, hc]

/-- Witness for amended C9: a present, non-empty left covered text yields a
merged covered text recomputed from the note text. -/
theorem C9_merge_covered_amended_witness :
    (mergeAnn c9wleft c9right ("ab cdef".toList)).span.covered_text =
      some (pyslice ("ab cdef".toList) c9wleft.span.begin c9right.span.«end») :=
  (C9_merge_covered_amended c9wleft c9right ("ab cdef".toList)).2
    ("ab".toList) (by decide) (by decide)

/-- C10: `position_independent_error` lower-cases every covered text with no
absence check, so it raises (returns `none`) whenever any annotation of
either admission has an absent covered text. -/
theorem C10_position_independent_error_missing_text :
    ∀ (actual predicted : Admission),
      hasMissingCovered actual ∨ hasMissingCovered predicted →
      positionIndependentError actual predicted = none :=
  fun actual predicted h => (pie_eq_none actual predicted).mpr h

/-- Witness for C10: an admission with a covered-text-free annotation makes
the computation fail. -/
theorem C10_position_independent_error_missing_text_witness :
    (hasMissingCovered c10miss ∨ hasMissingCovered c10ok) ∧
    positionIndependentError c10miss c10ok = none :=
  ⟨Or.inl (by decide),
   C10_position_independent_error_missing_text c10miss c10ok (Or.inl (by decide))⟩

end MDACE
